import Mathlib

/-!
# Verification of the Postgres TDE message framework
  (source/extensions/filters/network/postgres_tde/postgres_message.h)

Shallow embedding of the binary message decoding/encoding framework.
The buffer is a list of byte values; the cursor is the pair
(position, remaining budget) of `uint64_t` values threaded through every
`validate`/`read` call in the source.  All arithmetic in the source is on
`uint64_t`; every theorem below carries the well-formedness hypotheses
(cursor position within the buffer, guarded subtractions) under which the
`Nat` arithmetic used here agrees exactly with the source's modular
`uint64_t` arithmetic, since every subtraction in the modelled code paths
is guarded by a preceding comparison.
-/

/-- A byte buffer: the sequence of byte values held by `Buffer::Instance`.
Well-formed buffers have all entries below 256. -/
abbrev Data := List Nat

/-- The tri-state `Message::ValidationResult` of the source
(`ValidationFailed`, `ValidationOK`, `ValidationNeedMoreData`). -/
inductive VRes where
  | Failed
  | OK
  | NeedMoreData
deriving DecidableEq, Repr

/-- The parse cursor: the `pos` / `left` pair of `uint64_t` values threaded
by reference through every `validate` and `read` in the source. -/
structure Cursor where
  pos : Nat
  left : Nat
deriving DecidableEq, Repr

/-- `data.peekBEInt<T>(pos)` for a `w`-byte integer type: the big-endian
combination of the `w` bytes starting at `pos`.  Out-of-range bytes
default to 0; every modelled call site is guarded so that the peek is
in bounds. -/
def peekBE (d : Data) (p : Nat) : Nat → Nat
  | 0 => 0
  | w + 1 => peekBE d p w * 256 + d.getD (p + w) 0

/-- `writeBEInt` of a `w`-byte integer: the `w` big-endian bytes of `v`.
Like the source's fixed-width write, this truncates `v` to `w` bytes. -/
def beBytes : Nat → Nat → List Nat
  | 0, _ => []
  | w + 1, v => beBytes w (v / 256) ++ [v % 256]

/-- The `n` bytes of the buffer starting at position `p`. -/
def byteSlice (d : Data) (p n : Nat) : List Nat := (d.drop p).take n

/-- `Int<T>::validate` for a `w`-byte integer type `T`: `Failed` when the
remaining budget is below the width, `NeedMoreData` when the buffer holds
fewer than `w` bytes at the cursor, otherwise advance by `w`. -/
def intValidate (w : Nat) (d : Data) (c : Cursor) : VRes × Cursor :=
  if c.left < w then (VRes.Failed, c)
  else if d.length - c.pos < w then (VRes.NeedMoreData, c)
  else (VRes.OK, ⟨c.pos + w, c.left - w⟩)

/-- The validation behaviour of a freshly default-constructed element of
some field type: result, updated cursor, and the element's resulting
internal state (of element-specific type `σ`).  `Array<T>::validate` and
`Repeated<T>::validate` construct each element with `make_unique<T>()`
before validating it, so the element validator takes no input state. -/
abbrev EV (σ : Type) := Data → Nat → Cursor → VRes × Cursor × σ

/-- The element loop of `Array<T>::validate`: validate `n` freshly
constructed elements in order, stopping at the first non-`OK` result. -/
def arrAbsLoop {σ : Type} (ev : EV σ) (d : Data) (so : Nat) :
    Nat → Cursor → VRes × Cursor × List σ
  | 0, c => (VRes.OK, c, [])
  | n + 1, c =>
    let (r, c1, s) := ev d so c
    if r = VRes.OK then
      let (r2, c2, l) := arrAbsLoop ev d so n c1
      (r2, c2, s :: l)
    else (r, c1, [])

/-- `Array<T>::validate`: check the 2-byte count prefix is inside the
budget and the buffer, peek the element count, then validate that many
fresh elements; on any element failure restore the cursor saved before
the count prefix, clear `value_` and propagate the element's result;
on success append the validated elements to `value_` (`st`). -/
def arrayValidate {σ : Type} (ev : EV σ) (d : Data) (so : Nat) (c : Cursor)
    (st : List σ) : VRes × Cursor × List σ :=
  if c.left < 2 then (VRes.Failed, c, st)
  else if d.length - c.pos < 2 then (VRes.NeedMoreData, c, st)
  else
    let n := peekBE d c.pos 2
    let (r, c2, l) := arrAbsLoop ev d so n ⟨c.pos + 2, c.left - 2⟩
    if r = VRes.OK then (VRes.OK, c2, st ++ l) else (r, c, [])

/-- The element loop of `Repeated<T>::validate`: while the remaining
budget is nonzero, validate a fresh element; push it on `OK`, stop
otherwise (leaving the cursor as the failing element left it).  The
source's `while` loop is modelled with a fuel parameter; the callers
instantiate it with the remaining budget, which bounds the iteration
count whenever each successful element validation consumes at least one
byte (true of every field type of the source whose element loop
terminates). -/
def repAbsLoop {σ : Type} (ev : EV σ) (d : Data) (so : Nat) :
    Nat → Cursor → Cursor × List σ
  | 0, c => (c, [])
  | fuel + 1, c =>
    if c.left = 0 then (c, [])
    else
      let (r, c1, s) := ev d so c
      if r = VRes.OK then
        let (c2, l) := repAbsLoop ev d so fuel c1
        (c2, s :: l)
      else (c1, [])

/-- `Repeated<T>::validate`: `NeedMoreData` unless the whole remaining
budget is already present in the buffer; otherwise run the element loop
and return `OK` unconditionally, appending whatever elements validated
to `value_` (`st`). -/
def repeatedValidate {σ : Type} (ev : EV σ) (d : Data) (so : Nat)
    (c : Cursor) (st : List σ) : VRes × Cursor × List σ :=
  if d.length - c.pos < c.left then (VRes.NeedMoreData, c, st)
  else
    let (c1, l) := repAbsLoop ev d so c.left c
    (VRes.OK, c1, st ++ l)

/-- `Repeated<T>::write`: serialize every retained element in order. -/
def repeatedWrite {σ : Type} (ew : σ → List Nat) (l : List σ) : List Nat :=
  (l.map ew).flatten

/-- Reference run used to state loop properties: validate `k` fresh
elements in order, succeeding only if every one returns `OK`. -/
def okRun {σ : Type} (ev : EV σ) (d : Data) (so : Nat) :
    Nat → Cursor → Option (Cursor × List σ)
  | 0, c => some (c, [])
  | k + 1, c =>
    let (r, c1, s) := ev d so c
    if r = VRes.OK then
      match okRun ev d so k c1 with
      | some (c2, l) => some (c2, s :: l)
      | none => none
    else none

/-- The cursor behaviour of one field's `validate`, as seen by
`Sequence<FirstField, Remaining...>::validate`, which treats each field's
validator as an opaque call mutating `pos`/`left`. -/
abbrev FieldV := Data → Nat → Cursor → VRes × Cursor

/-- `Sequence<FirstField, Remaining...>::validate` / `Sequence<>::validate`
over the chain of field validators: snapshot the cursor, validate the
first field, restore-and-return on failure, recurse on the remainder,
restore-and-return on failure, else `OK`. -/
def seqValidateA : List FieldV → Data → Nat → Cursor → VRes × Cursor
  | [], _, _, c => (VRes.OK, c)
  | f :: fs, d, so, c =>
    let (r, c1) := f d so c
    if r = VRes.OK then
      let (r2, c2) := seqValidateA fs d so c1
      if r2 = VRes.OK then (VRes.OK, c2) else (r2, c)
    else (r, c)

/-- Plain sequential run of field validators with no rollback: the cursor
trajectory the individual fields produce, used to state which field is
the first to report a non-`OK` result and what the cursor was at that
point. -/
def runFields : List FieldV → Data → Nat → Cursor → VRes × Cursor
  | [], _, _, c => (VRes.OK, c)
  | f :: fs, d, so, c =>
    let (r, c1) := f d so c
    if r = VRes.OK then runFields fs d so c1 else (r, c1)

/-!
## Deep embedding of the concrete field types whose code is entirely in
the header: fixed-width integers (`Int8`/`Int16`/`Int32`/`Byte1`), the
counted `Array<T>` and the unbounded `Repeated<T>`, closed under nesting.
-/

/-- Field type expressions: a `w`-byte integer, a counted array of a
field type, an unbounded repetition of a field type. -/
inductive FTy where
  | int : Nat → FTy
  | array : FTy → FTy
  | repeated : FTy → FTy
deriving DecidableEq, Repr

/-- A field instance's state (`value_` and, for containers, the element
instances): integer value, array elements, repeated elements. -/
inductive FVal where
  | int : Nat → Nat → FVal
  | array : List FVal → FVal
  | repeated : List FVal → FVal

/-- The state of a default-constructed field instance. -/
def fdefault : FTy → FVal
  | .int w => .int w 0
  | .array _ => .array []
  | .repeated _ => .repeated []

/-- The element list held by a container instance. -/
def vlist : FVal → List FVal
  | .int _ _ => []
  | .array l => l
  | .repeated l => l

/-- `validate` of a field instance with current state `st`:
`Int<T>::validate` leaves `value_` untouched; `Array<T>::validate` and
`Repeated<T>::validate` run the corresponding combinator over freshly
constructed elements, mutating `value_`. -/
def fvalidate : FTy → Data → Nat → Cursor → FVal → VRes × Cursor × FVal
  | .int w, d, _, c, st =>
    let (r, c1) := intValidate w d c
    (r, c1, st)
  | .array t, d, so, c, st =>
    let (r, c1, l) :=
      arrayValidate (fun d1 so1 c1 => fvalidate t d1 so1 c1 (fdefault t)) d so c (vlist st)
    (r, c1, .array l)
  | .repeated t, d, so, c, st =>
    let (r, c1, l) :=
      repeatedValidate (fun d1 so1 c1 => fvalidate t d1 so1 c1 (fdefault t)) d so c (vlist st)
    (r, c1, .repeated l)

/-- The element loop of `Array<T>::read`: for `i` in `[0, size)` call
`value_[i]->read`, updating the element in place; element read results
are discarded by the source (`Array<T>::read` always returns `true`). -/
def arrReadLoopA (er : Data → Cursor → FVal → Bool × Cursor × FVal) (d : Data)
    (tdef : FVal) : Nat → Nat → Cursor → List FVal → Cursor × List FVal
  | 0, _, c, l => (c, l)
  | m + 1, i, c, l =>
    let (_, c1, v) := er d c (l.getD i tdef)
    arrReadLoopA er d tdef m (i + 1) c1 (l.set i v)

/-- The element loop of `Repeated<T>::read`: read each retained element
in order, returning `false` as soon as one element's read fails. -/
def repReadLoopA (er : Data → Cursor → FVal → Bool × Cursor × FVal) (d : Data) :
    List FVal → Cursor → Bool × Cursor × List FVal
  | [], c => (true, c, [])
  | v :: vs, c =>
    let (b, c1, v1) := er d c v
    if b then
      let (b2, c2, vs1) := repReadLoopA er d vs c1
      (b2, c2, v1 :: vs1)
    else (false, c1, v1 :: vs)

/-- `read` of a field instance with state `st`: `Int<T>::read` stores the
peeked big-endian value and advances; `Array<T>::read` re-peeks the
2-byte count and reads that many elements of `value_` in place;
`Repeated<T>::read` reads every retained element. -/
def fread : FTy → Data → Cursor → FVal → Bool × Cursor × FVal
  | .int w, d, c, _ => (true, ⟨c.pos + w, c.left - w⟩, .int w (peekBE d c.pos w))
  | .array t, d, c, st =>
    let n := peekBE d c.pos 2
    let (c1, l) := arrReadLoopA (fread t) d (fdefault t) n 0 ⟨c.pos + 2, c.left - 2⟩ (vlist st)
    (true, c1, .array l)
  | .repeated t, d, c, st =>
    let (b, c1, l) := repReadLoopA (fread t) d (vlist st) c
    (b, c1, .repeated l)

mutual

/-- `write` of a field instance: big-endian bytes for an integer; the
2-byte element count (truncated, as by `writeBEInt<uint16_t>`) followed
by the element payloads for an array; the element payloads alone for a
repetition. -/
def fwrite : FVal → List Nat
  | .int w v => beBytes w v
  | .array l => beBytes 2 l.length ++ fwriteList l
  | .repeated l => fwriteList l

/-- Serialization of a list of field instances in order. -/
def fwriteList : List FVal → List Nat
  | [] => []
  | v :: vs => fwrite v ++ fwriteList vs

end

mutual

/-- `getSize` of a field instance: the integer width; for containers,
the element sizes accumulated into the source's `uint16_t` accumulator
(wrapping modulo 2^16), plus the 2-byte count for `Array`. -/
def fgetSize : FVal → Nat
  | .int w _ => w
  | .array l => 2 + sizeAccum l 0
  | .repeated l => sizeAccum l 0

/-- The `uint16_t size` accumulation loop of `Array<T>::getSize` and
`Repeated<T>::getSize`. -/
def sizeAccum : List FVal → Nat → Nat
  | [], acc => acc
  | v :: vs, acc => sizeAccum vs ((acc + fgetSize v) % 65536)

end

mutual

/-- The mathematical wire size of a field instance (no 16-bit wrapping):
what `getSize` intends to compute. -/
def trueSize : FVal → Nat
  | .int w _ => w
  | .array l => 2 + trueSizeList l
  | .repeated l => trueSizeList l

/-- Sum of the mathematical wire sizes of a list of field instances. -/
def trueSizeList : List FVal → Nat
  | [] => 0
  | v :: vs => trueSize v + trueSizeList vs

end

mutual

/-- A field value is size-safe when, at every container node, the total
element size fits the source's 16-bit accumulator. -/
def sizeOkVal : FVal → Bool
  | .int _ _ => true
  | .array l => decide (trueSizeList l < 65536) && sizeOkList l
  | .repeated l => decide (trueSizeList l < 65536) && sizeOkList l

/-- All values of a list are size-safe. -/
def sizeOkList : List FVal → Bool
  | [] => true
  | v :: vs => sizeOkVal v && sizeOkList vs

end

/-- Well-formed field types: integer widths are the instantiated 1, 2 and
4 byte widths of the source, and a `Repeated` is not directly nested in a
`Repeated` (for which the source's element loop would not terminate). -/
def wfTy : FTy → Bool
  | .int w => decide (w = 1) || decide (w = 2) || decide (w = 4)
  | .array t => wfTy t
  | .repeated t => (match t with | .repeated _ => false | _ => true) && wfTy t

/-!
## Sequence and message layer over the deep embedding
-/

/-- `Sequence<...>::validate` over a concrete field-type list, threading
each member field's state: snapshot the cursor, validate the first field
(whose state mutation persists), restore-and-return on any failure. -/
def seqValidateD : List FTy → List FVal → Data → Nat → Cursor → VRes × Cursor × List FVal
  | [], _, _, _, c => (VRes.OK, c, [])
  | t :: ts, vals, d, so, c =>
    let (r, c1, v1) := fvalidate t d so c (vals.headD (fdefault t))
    if r = VRes.OK then
      let (r2, c2, vs1) := seqValidateD ts vals.tail d so c1
      if r2 = VRes.OK then (VRes.OK, c2, v1 :: vs1) else (r2, c, v1 :: vs1)
    else (r, c, v1 :: vals.tail)

/-- `Sequence<...>::read` over a concrete field-type list: read each
field in order, stopping at the first failed read. -/
def seqReadD : List FTy → List FVal → Data → Cursor → Bool × Cursor × List FVal
  | [], _, _, c => (true, c, [])
  | t :: ts, vals, d, c =>
    let (b, c1, v1) := fread t d c (vals.headD (fdefault t))
    if b then
      let (b2, c2, vs1) := seqReadD ts vals.tail d c1
      (b2, c2, v1 :: vs1)
    else (false, c1, v1 :: vals.tail)

/-- `Sequence<...>::write`: serialize each member field in order. -/
def seqWriteD (vals : List FVal) : List Nat := fwriteList vals

/-- `Sequence<...>::getSize`: the sum of the member fields' sizes
(`Sequence<>::getSize` is 0). -/
def seqSizeD : List FVal → Nat
  | [] => 0
  | v :: vs => fgetSize v + seqSizeD vs

/-- A message instance's mutable state: the `validation_result_` member
(initially `ValidationNeedMoreData`) and the member fields' states. -/
structure MsgState where
  vres : VRes
  vals : List FVal

/-- A freshly constructed `MessageImpl<Types...>`. -/
def msgInit (ts : List FTy) : MsgState :=
  ⟨VRes.NeedMoreData, ts.map fdefault⟩

/-- `validate(data, start_pos, length)` of a message instance.  For a
non-empty field-type list this is the general
`MessageImpl<Types...>::validate`: run the sequence validation from
`pos = start_pos`, `left = length`, store the result in
`validation_result_` and return it.  The empty list is the source's full
specialization `MessageImpl<>::validate`, which returns `ValidationOK`
without ever writing `validation_result_`. -/
def msgValidate (ts : List FTy) (s : MsgState) (d : Data) (sp L : Nat) :
    VRes × MsgState :=
  match ts with
  | [] => (VRes.OK, s)
  | _ :: _ =>
    let (r, _, vals1) := seqValidateD ts s.vals d sp ⟨sp, L⟩
    (r, ⟨r, vals1⟩)

/-- `read(data, length)` of a message instance.  For a non-empty
field-type list this is the general `MessageImpl<Types...>::read`, which
asserts `validation_result_ == ValidationOK` (`none` models that fatal
assertion failure) and then reads the sequence from `pos = 0`,
`left = length`.  The empty list is the source's full specialization
`MessageImpl<>::read`, which returns `true` unconditionally — it has no
assertion and never consults `validation_result_`. -/
def msgRead (ts : List FTy) (s : MsgState) (d : Data) (L : Nat) :
    Option (Bool × Cursor × List FVal) :=
  match ts with
  | [] => some (true, ⟨0, L⟩, [])
  | _ :: _ =>
    if s.vres = VRes.OK then some (seqReadD ts s.vals d ⟨0, L⟩) else none

/-- `MessageImpl<Types...>::write(to, identifier)`: the identifier byte,
the 4-byte big-endian value `getSize() + sizeof(uint32_t)`, then the
payload.  For the zero-field `MessageImpl<>` this is the identifier byte
followed by the big-endian value 4. -/
def msgWriteId (vals : List FVal) (id : Nat) : List Nat :=
  [id % 256] ++ beBytes 4 (seqSizeD vals + 4) ++ seqWriteD vals

/-- The two message variants of the source: `MessageImpl<Types...>`
(no wire identifier, receive-only) and `TypedMessage<Identifier, Types...>`. -/
inductive MsgKind where
  | plain : List FTy → MsgKind
  | typed : Nat → List FTy → MsgKind

/-- `isWriteable()`: `false` for `MessageImpl` (both variants), `true`
for `TypedMessage`. -/
def isWriteable : MsgKind → Bool
  | .plain _ => false
  | .typed _ _ => true

/-- The single-argument virtual `write(Buffer&)`: for `MessageImpl` the
source is `ASSERT(false)` (modelled as `none`, a fatal assertion); for
`TypedMessage` it emits the identified frame. -/
def msgWriteOut : MsgKind → List FVal → Option (List Nat)
  | .plain _, _ => none
  | .typed id _, vals => some (msgWriteId vals id)

/-!
## Byte-level helper lemmas
-/

/-- In a well-formed buffer every `getD` access yields a byte. -/
theorem getD_byte {d : Data} (hd : ∀ b ∈ d, b < 256) (i : Nat) :
    d.getD i 0 < 256 := by
  by_cases h : i < d.length
  · rw [List.getD_eq_getElem d 0 h]
    exact hd _ (List.getElem_mem h)
  · rw [List.getD_eq_default d 0 (by omega)]
    omega

/-- A big-endian peek of `w` bytes is below `256 ^ w`. -/
theorem peekBE_lt {d : Data} (hd : ∀ b ∈ d, b < 256) (p : Nat) :
    ∀ w, peekBE d p w < 256 ^ w := by
  intro w
  induction w with
  | zero => simp [peekBE]
  | succ k ih =>
    have hb := getD_byte hd (p + k)
    have : 256 ^ (k + 1) = 256 ^ k * 256 := by ring
    simp only [peekBE, this]
    omega

/-- One byte of the buffer as a slice. -/
theorem byteSlice_one {d : Data} {p : Nat} (h : p < d.length) :
    byteSlice d p 1 = [d.getD p 0] := by
  unfold byteSlice
  rw [List.getD_eq_getElem d 0 h, List.drop_eq_getElem_cons h]
  rfl

/-- Splitting a slice at an interior point. -/
theorem byteSlice_append (d : Data) {a b e : Nat} (hab : a ≤ b) (hbe : b ≤ e) :
    byteSlice d a (b - a) ++ byteSlice d b (e - b) = byteSlice d a (e - a) := by
  unfold byteSlice
  have h1 : e - a = (b - a) + (e - b) := by omega
  rw [h1, List.take_add, List.drop_drop]
  have h2 : a + (b - a) = b := by omega
  rw [h2]

/-- Serializing a peeked big-endian value reproduces the peeked bytes. -/
theorem beBytes_peekBE {d : Data} (hd : ∀ b ∈ d, b < 256) (p : Nat) :
    ∀ w, p + w ≤ d.length → beBytes w (peekBE d p w) = byteSlice d p w := by
  intro w
  induction w with
  | zero => intro _; simp [beBytes, peekBE, byteSlice]
  | succ k ih =>
    intro h
    have hb := getD_byte hd (p + k)
    have hdiv : (peekBE d p k * 256 + d.getD (p + k) 0) / 256 = peekBE d p k := by
      omega
    have hmod : (peekBE d p k * 256 + d.getD (p + k) 0) % 256 = d.getD (p + k) 0 := by
      omega
    have hslice : byteSlice d p (k + 1) = byteSlice d p k ++ [d.getD (p + k) 0] := by
      unfold byteSlice
      rw [List.take_add, List.drop_drop]
      have hlt : p + k < d.length := by omega
      have : (d.drop (p + k)).take 1 = [d.getD (p + k) 0] := byteSlice_one hlt
      rw [this]
    simp only [beBytes, peekBE, hdiv, hmod, hslice, ih (by omega)]

/-- The length of a `w`-byte big-endian serialization. -/
theorem beBytes_length (w v : Nat) : (beBytes w v).length = w := by
  induction w generalizing v with
  | zero => simp [beBytes]
  | succ k ih => simp [beBytes, ih]

/-!
## Claim C5: fixed-width integer validation
-/

/-- Claim C5: for a fixed-width integer field of width 1, 2 or 4,
`validate` returns `Failed` when the remaining budget is below the
width; otherwise `NeedMoreData` when the buffer holds fewer than `width`
bytes at the cursor; otherwise it advances the position by `width`,
decreases the budget by `width` and returns `OK`; in both non-`OK` cases
the cursor is unchanged. -/
theorem int_validate_cases (w : Nat) (hw : w = 1 ∨ w = 2 ∨ w = 4)
    (d : Data) (c : Cursor) (hpos : c.pos ≤ d.length) :
    (c.left < w → intValidate w d c = (VRes.Failed, c))
    ∧ (w ≤ c.left → d.length - c.pos < w → intValidate w d c = (VRes.NeedMoreData, c))
    ∧ (w ≤ c.left → w ≤ d.length - c.pos →
        intValidate w d c = (VRes.OK, ⟨c.pos + w, c.left - w⟩)) := by
  refine ⟨fun h1 => ?_, fun h1 h2 => ?_, fun h1 h2 => ?_⟩
  · simp [intValidate, h1]
  · have hnl : ¬ c.left < w := by omega
    simp [intValidate, hnl, h2]
  · have hnl : ¬ c.left < w := by omega
    have hnd : ¬ (d.length - c.pos < w) := by omega
    simp [intValidate, hnl, hnd]

/-- Witness for C5 at width 4 on a 2-byte buffer with budget 5. -/
theorem int_validate_cases_witness :
    (Cursor.left ⟨0, 5⟩ < 4 → intValidate 4 [1, 2] ⟨0, 5⟩ = (VRes.Failed, ⟨0, 5⟩))
    ∧ (4 ≤ Cursor.left ⟨0, 5⟩ → List.length [1, 2] - Cursor.pos ⟨0, 5⟩ < 4 →
        intValidate 4 [1, 2] ⟨0, 5⟩ = (VRes.NeedMoreData, ⟨0, 5⟩))
    ∧ (4 ≤ Cursor.left ⟨0, 5⟩ → 4 ≤ List.length [1, 2] - Cursor.pos ⟨0, 5⟩ →
        intValidate 4 [1, 2] ⟨0, 5⟩ = (VRes.OK, ⟨0 + 4, 5 - 4⟩)) :=
  int_validate_cases 4 (by decide) [1, 2] ⟨0, 5⟩ (by decide)

/-!
## Claim C1: Sequence validation is transactional
-/

/-- Claim C1: for every chain of fields, if the fields before `f` all
validate `OK` (reaching cursor `(runFields fs1 d so c).2`) and `f`'s
validation returns a non-`OK` result there, then the sequence's
validation returns exactly that result with the cursor restored to its
value before the first field was attempted — independently of whatever
fields follow `f` in the chain, which are therefore never attempted. -/
theorem seq_validate_transactional (fs1 : List FieldV) (f : FieldV)
    (tail : List FieldV) (d : Data) (so : Nat) (c : Cursor)
    (h1 : (runFields fs1 d so c).1 = VRes.OK)
    (hr : (f d so (runFields fs1 d so c).2).1 ≠ VRes.OK) :
    seqValidateA (fs1 ++ f :: tail) d so c
      = ((f d so (runFields fs1 d so c).2).1, c) := by
  induction fs1 generalizing c with
  | nil =>
    simp only [runFields] at h1 hr ⊢
    simp only [List.nil_append, seqValidateA]
    rcases hf : f d so c with ⟨r, c1⟩
    rw [hf] at hr
    simp only at hr
    simp [hr]
  | cons g gs ih =>
    rcases hg : g d so c with ⟨rg, cg⟩
    have hrun : runFields (g :: gs) d so c
        = if rg = VRes.OK then runFields gs d so cg else (rg, cg) := by
      simp [runFields, hg]
    by_cases hok : rg = VRes.OK
    · rw [hrun, if_pos hok] at h1 hr ⊢
      have h2 := ih cg h1 hr
      show seqValidateA (g :: (gs ++ f :: tail)) d so c = _
      simp only [seqValidateA, hg]
      rw [if_pos hok, h2]
      simp [hr]
    · rw [hrun, if_neg hok] at h1
      exact absurd h1 hok

/-- A sample field validator that consumes one byte of budget. -/
def sampleOkField : FieldV := fun _ _ c => (VRes.OK, ⟨c.pos + 1, c.left - 1⟩)

/-- A sample field validator that always fails without moving the cursor. -/
def sampleFailField : FieldV := fun _ _ c => (VRes.Failed, c)

/-- Witness for C1: a three-field chain whose middle field fails rolls
the whole sequence back to the initial cursor and reports `Failed`,
with the third field never attempted. -/
theorem seq_validate_transactional_witness :
    seqValidateA ([sampleOkField] ++ sampleFailField :: [sampleOkField]) [] 0 ⟨0, 5⟩
      = ((sampleFailField [] 0 (runFields [sampleOkField] [] 0 ⟨0, 5⟩).2).1, ⟨0, 5⟩) :=
  seq_validate_transactional [sampleOkField] sampleFailField [sampleOkField] [] 0 ⟨0, 5⟩
    (by decide) (by decide)

/-!
## Claim C3: counted Array validation is all-or-nothing
-/

/-- If the first `k` elements validate `OK` and the next element does
not, the array's element loop (with any declared count above `k`)
reports that element's result. -/
theorem arrAbsLoop_fails_of_okRun {σ : Type} (ev : EV σ) (d : Data) (so : Nat) :
    ∀ k c ck lk r c2 s, okRun ev d so k c = some (ck, lk) →
      ev d so ck = (r, c2, s) → r ≠ VRes.OK →
      ∀ n, k < n → (arrAbsLoop ev d so n c).1 = r := by
  intro k
  induction k with
  | zero =>
    intro c ck lk r c2 s hrun hev hr n hn
    simp only [okRun, Option.some_inj, Prod.mk.injEq] at hrun
    obtain ⟨hc, -⟩ := hrun
    subst hc
    rcases n with _ | m
    · omega
    · simp only [arrAbsLoop, hev]
      simp [hr]
  | succ k ih =>
    intro c ck lk r c2 s hrun hev hr n hn
    rcases hev0 : ev d so c with ⟨r0, c1, s1⟩
    simp only [okRun, hev0] at hrun
    by_cases h0 : r0 = VRes.OK
    · subst h0
      rw [if_pos rfl] at hrun
      rcases hrun2 : okRun ev d so k c1 with _ | ⟨ck2, lk2⟩
      · rw [hrun2] at hrun
        exact absurd hrun (by simp)
      · rw [hrun2] at hrun
        simp only [Option.some_inj, Prod.mk.injEq] at hrun
        obtain ⟨hck, -⟩ := hrun
        subst hck
        rcases n with _ | m
        · omega
        · have hih := ih c1 ck2 lk2 r c2 s hrun2 hev hr m (by omega)
          simp only [arrAbsLoop, hev0]
          simp [hih]
    · simp [h0] at hrun

/-- If all `n` declared elements validate `OK`, the array element loop
returns `OK` with their states and the final cursor. -/
theorem arrAbsLoop_of_okRun_ok {σ : Type} (ev : EV σ) (d : Data) (so : Nat) :
    ∀ n c cn ln, okRun ev d so n c = some (cn, ln) →
      arrAbsLoop ev d so n c = (VRes.OK, cn, ln) := by
  intro n
  induction n with
  | zero =>
    intro c cn ln hrun
    simp only [okRun, Option.some_inj, Prod.mk.injEq] at hrun
    obtain ⟨h1, h2⟩ := hrun
    simp [arrAbsLoop, h1, h2]
  | succ n ih =>
    intro c cn ln hrun
    rcases hev0 : ev d so c with ⟨r0, c1, s1⟩
    simp only [okRun, hev0] at hrun
    by_cases h0 : r0 = VRes.OK
    · subst h0
      rw [if_pos rfl] at hrun
      rcases hrun2 : okRun ev d so n c1 with _ | ⟨ck2, lk2⟩
      · rw [hrun2] at hrun
        exact absurd hrun (by simp)
      · rw [hrun2] at hrun
        simp only [Option.some_inj, Prod.mk.injEq] at hrun
        obtain ⟨h1, h2⟩ := hrun
        simp only [arrAbsLoop, hev0]
        simp [ih c1 ck2 lk2 hrun2, h1, h2]
    · simp [h0] at hrun

/-- Conversely, the array element loop reports `OK` only if every
declared element validates `OK` in order. -/
theorem okRun_of_arrAbsLoop_ok {σ : Type} (ev : EV σ) (d : Data) (so : Nat) :
    ∀ n c cn ln, arrAbsLoop ev d so n c = (VRes.OK, cn, ln) →
      okRun ev d so n c = some (cn, ln) := by
  intro n
  induction n with
  | zero =>
    intro c cn ln hal
    simp only [arrAbsLoop, Prod.mk.injEq] at hal
    obtain ⟨-, h1, h2⟩ := hal
    simp [okRun, h1, h2]
  | succ n ih =>
    intro c cn ln hal
    rcases hev0 : ev d so c with ⟨r0, c1, s1⟩
    simp only [arrAbsLoop, hev0] at hal
    by_cases h0 : r0 = VRes.OK
    · subst h0
      rw [if_pos rfl] at hal
      rcases hal2 : arrAbsLoop ev d so n c1 with ⟨r2, c2, l2⟩
      rw [hal2] at hal
      simp only [Prod.mk.injEq] at hal
      obtain ⟨hr2, hc2, hl⟩ := hal
      subst hr2
      simp only [okRun, hev0]
      simp [ih c1 c2 l2 hal2, hc2, hl]
    · rw [if_neg h0] at hal
      simp only [Prod.mk.injEq] at hal
      exact absurd hal.1 h0

/-- Claim C3: a counted array validation reads the 16-bit count, then
validates each declared element in order; if any element returns a
non-`OK` result, the cursor is rolled back to its state before the count
prefix, every accumulated element value is discarded and that element's
result is propagated; it returns `OK` exactly when all declared elements
validate, and only then are the element values retained (appended to the
existing ones). -/
theorem array_validate_all_or_nothing {σ : Type} (ev : EV σ) (d : Data)
    (so : Nat) (c : Cursor) (st : List σ)
    (hleft : 2 ≤ c.left) (hbuf : c.pos + 2 ≤ d.length) :
    (∀ k ck lk r c2 s, k < peekBE d c.pos 2 →
        okRun ev d so k ⟨c.pos + 2, c.left - 2⟩ = some (ck, lk) →
        ev d so ck = (r, c2, s) → r ≠ VRes.OK →
        arrayValidate ev d so c st = (r, c, []))
    ∧ (∀ cn ln, okRun ev d so (peekBE d c.pos 2) ⟨c.pos + 2, c.left - 2⟩ = some (cn, ln) →
        arrayValidate ev d so c st = (VRes.OK, cn, st ++ ln))
    ∧ ((arrayValidate ev d so c st).1 = VRes.OK →
        ∃ cn ln, okRun ev d so (peekBE d c.pos 2) ⟨c.pos + 2, c.left - 2⟩
          = some (cn, ln)) := by
  have hnl : ¬ c.left < 2 := by omega
  have hnb : ¬ (d.length - c.pos < 2) := by omega
  refine ⟨?_, ?_, ?_⟩
  · intro k ck lk r c2 s hk hrun hev hr
    have hfail := arrAbsLoop_fails_of_okRun ev d so k ⟨c.pos + 2, c.left - 2⟩
      ck lk r c2 s hrun hev hr (peekBE d c.pos 2) hk
    simp only [arrayValidate, hnl, hnb, if_false]
    rcases hal : arrAbsLoop ev d so (peekBE d c.pos 2) ⟨c.pos + 2, c.left - 2⟩
      with ⟨ra, ca, la⟩
    rw [hal] at hfail
    simp only at hfail
    subst hfail
    simp [hr]
  · intro cn ln hrun
    have hok := arrAbsLoop_of_okRun_ok ev d so _ _ _ _ hrun
    simp only [arrayValidate, hnl, hnb, if_false]
    simp [hok]
  · intro hres
    simp only [arrayValidate, hnl, hnb, if_false] at hres
    rcases hal : arrAbsLoop ev d so (peekBE d c.pos 2) ⟨c.pos + 2, c.left - 2⟩
      with ⟨ra, ca, la⟩
    rw [hal] at hres
    by_cases h0 : ra = VRes.OK
    · subst h0
      exact ⟨ca, la, okRun_of_arrAbsLoop_ok ev d so _ _ _ _ hal⟩
    · rw [if_neg h0] at hres
      exact absurd hres h0

/-- A fresh `Int8` element validator (as constructed by
`Array<Int8>::validate` / `Repeated<Int8>::validate`). -/
def evInt1 : EV FVal := fun d1 so1 c1 => fvalidate (.int 1) d1 so1 c1 (fdefault (.int 1))

/-- A fresh `Int32` element validator (as constructed by
`Array<Int32>::validate` / `Repeated<Int32>::validate`). -/
def evInt4 : EV FVal := fun d1 so1 c1 => fvalidate (.int 4) d1 so1 c1 (fdefault (.int 4))

/-- Witness for C3: an `Array<Int8>` declaring 2 elements over a buffer
holding the count and only one element byte rolls back to the initial
cursor, discards the accumulated element and reports `NeedMoreData`. -/
theorem array_validate_all_or_nothing_witness :
    arrayValidate evInt1 [0, 2, 7] 0 ⟨0, 5⟩ ([] : List FVal)
      = (VRes.NeedMoreData, ⟨0, 5⟩, []) :=
  (array_validate_all_or_nothing evInt1 [0, 2, 7] 0 ⟨0, 5⟩ []
      (by decide) (by decide)).1
    1 ⟨3, 2⟩ [FVal.int 1 0] VRes.NeedMoreData ⟨3, 2⟩ (FVal.int 1 0)
    (by decide) rfl rfl (by decide)

/-!
## Claims C4 and C10: unbounded Repeated validation
-/

/-- A successful fixed-width integer validation of positive width
strictly decreases the remaining budget. -/
theorem intValidate_ok_consumes {w : Nat} (hw : 1 ≤ w) (d : Data) (c : Cursor) :
    ∀ r c1, intValidate w d c = (r, c1) → r = VRes.OK → c1.left < c.left := by
  intro r c1 h hr
  subst hr
  unfold intValidate at h
  by_cases h1 : c.left < w
  · simp [h1] at h
  · by_cases h2 : d.length - c.pos < w
    · simp [h1, h2] at h
    · simp only [h1, h2, if_false, Prod.mk.injEq] at h
      obtain ⟨-, hc⟩ := h
      have hcl : c1.left = c.left - w := by rw [← hc]
      omega

/-- A successful fresh `Int32` element validation strictly decreases the
remaining budget. -/
theorem evInt4_consumes (d : Data) (so : Nat) :
    ∀ c1 r c2 s, evInt4 d so c1 = (r, c2, s) → r = VRes.OK → c2.left < c1.left := by
  intro c1 r c2 s h hr
  have hi2 : intValidate 4 d c1 = (r, c2) := by
    simp only [evInt4, fvalidate] at h
    rcases hi : intValidate 4 d c1 with ⟨ri, ci⟩
    rw [hi] at h
    simp only [Prod.mk.injEq] at h
    obtain ⟨h1, h2, -⟩ := h
    rw [h1, h2]
  exact intValidate_ok_consumes (by omega) d c1 r c2 hi2 hr

/-- Claim C4: `Repeated<T>::validate` returns `NeedMoreData` exactly when
fewer than the declared remaining-budget bytes are present at the cursor
(before attempting any element, leaving cursor and state untouched); in
every other case it returns `OK`, regardless of why the element loop
stopped.  The element-consumption hypothesis `hdec` scopes the statement
to element types for which the source's `while` loop terminates, making
the fuelled model exact. -/
theorem repeated_validate_budget {σ : Type} (ev : EV σ) (d : Data) (so : Nat)
    (c : Cursor) (st : List σ) (hpos : c.pos ≤ d.length)
    (hdec : ∀ c1 r c2 s, ev d so c1 = (r, c2, s) → r = VRes.OK → c2.left < c1.left) :
    (d.length - c.pos < c.left →
      repeatedValidate ev d so c st = (VRes.NeedMoreData, c, st))
    ∧ (c.left ≤ d.length - c.pos →
      (repeatedValidate ev d so c st).1 = VRes.OK) := by
  constructor
  · intro h
    simp [repeatedValidate, h]
  · intro h
    have hn : ¬ (d.length - c.pos < c.left) := by omega
    simp only [repeatedValidate, hn, if_false]

/-- Witness for C4: a `Repeated<Int32>` with a 5-byte budget over a fully
arrived 5-byte buffer reports `OK` even though the element loop stops on
a failing element; with only the budget check violated it reports
`NeedMoreData`. -/
theorem repeated_validate_budget_witness :
    (List.length [0, 0, 0, 1, 170] - Cursor.pos ⟨0, 5⟩ < Cursor.left ⟨0, 5⟩ →
      repeatedValidate evInt4 [0, 0, 0, 1, 170] 0 ⟨0, 5⟩ ([] : List FVal)
        = (VRes.NeedMoreData, ⟨0, 5⟩, []))
    ∧ (Cursor.left ⟨0, 5⟩ ≤ List.length [0, 0, 0, 1, 170] - Cursor.pos ⟨0, 5⟩ →
      (repeatedValidate evInt4 [0, 0, 0, 1, 170] 0 ⟨0, 5⟩ ([] : List FVal)).1
        = VRes.OK) :=
  repeated_validate_budget evInt4 [0, 0, 0, 1, 170] 0 ⟨0, 5⟩ []
    (by decide) (evInt4_consumes [0, 0, 0, 1, 170] 0)

/-- An all-`OK` run of fresh element validations whose successes each
consume budget leaves at most `c.left - k` budget. -/
theorem okRun_left_bound {σ : Type} (ev : EV σ) (d : Data) (so : Nat)
    (hdec : ∀ c1 r c2 s, ev d so c1 = (r, c2, s) → r = VRes.OK → c2.left < c1.left) :
    ∀ k c ck lk, okRun ev d so k c = some (ck, lk) → k + ck.left ≤ c.left := by
  intro k
  induction k with
  | zero =>
    intro c ck lk h
    simp only [okRun, Option.some_inj, Prod.mk.injEq] at h
    obtain ⟨hc, -⟩ := h
    subst hc
    omega
  | succ k ih =>
    intro c ck lk h
    rcases hev0 : ev d so c with ⟨r0, c1, s1⟩
    simp only [okRun, hev0] at h
    by_cases h0 : r0 = VRes.OK
    · subst h0
      rw [if_pos rfl] at h
      rcases hrun2 : okRun ev d so k c1 with _ | ⟨ck2, lk2⟩
      · rw [hrun2] at h
        exact absurd h (by simp)
      · rw [hrun2] at h
        simp only [Option.some_inj, Prod.mk.injEq] at h
        obtain ⟨hck, -⟩ := h
        rw [hck] at hrun2
        have hlt := hdec c VRes.OK c1 s1 hev0 rfl
        have := ih c1 ck lk2 hrun2
        omega
    · simp [h0] at h

/-- When the first `k` elements validate `OK`, the budget is still
nonzero at the stopping point and the next element validation fails, the
repeated element loop (with enough fuel) pushes exactly those `k`
elements and leaves the cursor where the failing element left it. -/
theorem repAbsLoop_of_okRun_stop {σ : Type} (ev : EV σ) (d : Data) (so : Nat)
    (hdec : ∀ c1 r c2 s, ev d so c1 = (r, c2, s) → r = VRes.OK → c2.left < c1.left) :
    ∀ k c ck lk r c2 s, okRun ev d so k c = some (ck, lk) →
      ev d so ck = (r, c2, s) → r ≠ VRes.OK → ck.left ≠ 0 →
      ∀ fuel, k < fuel → repAbsLoop ev d so fuel c = (c2, lk) := by
  intro k
  induction k with
  | zero =>
    intro c ck lk r c2 s hrun hev hr hk fuel hfuel
    simp only [okRun, Option.some_inj, Prod.mk.injEq] at hrun
    obtain ⟨hc, hl⟩ := hrun
    subst hc
    rcases fuel with _ | m
    · omega
    · simp only [repAbsLoop, hk, if_false, hev]
      simp [hr, hl]
  | succ k ih =>
    intro c ck lk r c2 s hrun hev hr hk fuel hfuel
    rcases hev0 : ev d so c with ⟨r0, c1, s1⟩
    simp only [okRun, hev0] at hrun
    by_cases h0 : r0 = VRes.OK
    · subst h0
      rw [if_pos rfl] at hrun
      rcases hrun2 : okRun ev d so k c1 with _ | ⟨ck2, lk2⟩
      · rw [hrun2] at hrun
        exact absurd hrun (by simp)
      · rw [hrun2] at hrun
        simp only [Option.some_inj, Prod.mk.injEq] at hrun
        obtain ⟨hck, hlk⟩ := hrun
        rw [hck] at hrun2
        have hbound := okRun_left_bound ev d so hdec k c1 ck lk2 hrun2
        have hc0 : c.left ≠ 0 := by
          have := hdec c VRes.OK c1 s1 hev0 rfl
          omega
        rcases fuel with _ | m
        · omega
        · have hloop := ih c1 ck lk2 r c2 s hrun2 hev hr hk m (by omega)
          simp only [repAbsLoop, hc0, if_false, hev0]
          simp [hloop, ← hlk]
    · simp [h0] at hrun

/-- Claim C10: when a `Repeated` validation stops because an inner
element's validation returned `Failed` or `NeedMoreData`, the elements
that validated before the stopping point remain retained in `value_`
(appended to any existing ones) and their serializations are emitted by
`write` — partially validated state is kept, unlike `Array` and
`Sequence`. -/
theorem repeated_retains_partial {σ : Type} (ev : EV σ) (ew : σ → List Nat)
    (d : Data) (so : Nat) (c : Cursor) (st : List σ)
    (k : Nat) (ck : Cursor) (lk : List σ) (r : VRes) (c2 : Cursor) (s : σ)
    (havail : ¬ (d.length - c.pos < c.left))
    (hdec : ∀ c1 r1 cb sb, ev d so c1 = (r1, cb, sb) → r1 = VRes.OK → cb.left < c1.left)
    (hrun : okRun ev d so k c = some (ck, lk))
    (hstop : ev d so ck = (r, c2, s)) (hr : r ≠ VRes.OK) (hk : ck.left ≠ 0) :
    repeatedValidate ev d so c st = (VRes.OK, c2, st ++ lk)
    ∧ repeatedWrite ew (st ++ lk) = repeatedWrite ew st ++ repeatedWrite ew lk := by
  have hb := okRun_left_bound ev d so hdec k c ck lk hrun
  have hloop := repAbsLoop_of_okRun_stop ev d so hdec k c ck lk r c2 s
    hrun hstop hr hk c.left (by omega)
  constructor
  · simp only [repeatedValidate, havail, if_false]
    simp [hloop]
  · simp [repeatedWrite]

/-- Witness for C10: a `Repeated<Int32>` over a 5-byte budget validates
one element, stops on the failing second element, retains the validated
element and emits it on `write`. -/
theorem repeated_retains_partial_witness :
    repeatedValidate evInt4 [0, 0, 0, 1, 170] 0 ⟨0, 5⟩ ([] : List FVal)
      = (VRes.OK, ⟨4, 1⟩, [] ++ [FVal.int 4 0])
    ∧ repeatedWrite fwrite ([] ++ [FVal.int 4 0])
      = repeatedWrite fwrite [] ++ repeatedWrite fwrite [FVal.int 4 0] :=
  repeated_retains_partial evInt4 fwrite [0, 0, 0, 1, 170] 0 ⟨0, 5⟩ []
    1 ⟨4, 1⟩ [FVal.int 4 0] VRes.Failed ⟨4, 1⟩ (FVal.int 4 0)
    (by decide) (evInt4_consumes [0, 0, 0, 1, 170] 0) rfl rfl
    (by decide) (by decide)

/-!
## Claims C8 and C9: the read/write programming contract
-/

/-- Counterexample to C8 as stated: the zero-field specialization
`MessageImpl<>` refutes "for every message instance".  A freshly
constructed `MessageImpl<>` has the initial `validation_result_`
(`NeedMoreData`, never written by its `validate`), yet its `read` is the
specialization that returns `true` with no assertion — not a fatal
assertion failure. -/
theorem read_requires_validate_ok_cex :
    (msgInit []).vres = VRes.NeedMoreData
    ∧ msgRead [] (msgInit []) [] 0 = some (true, ⟨0, 0⟩, []) :=
  ⟨rfl, rfl⟩

/-- Claim C8 (amended): for every message instance with at least one
field type (the general `MessageImpl<Types...>` template), calling
`read` when the most recent `validate` did not return `OK` — or when
`validate` was never called, the initial state being `NeedMoreData` — is
the fatal assertion (`none`); after a `validate` call that returned
`OK`, `read` passes the assertion.  The zero-field specialization
`MessageImpl<>` is excluded: its `read` returns `true` with no
assertion. -/
theorem read_requires_validate_ok (t0 : FTy) (ts : List FTy) (d d2 : Data)
    (sp L L2 : Nat) :
    (msgRead (t0 :: ts) (msgInit (t0 :: ts)) d2 L2 = none)
    ∧ (∀ s : MsgState, (msgValidate (t0 :: ts) s d sp L).1 ≠ VRes.OK →
        msgRead (t0 :: ts) (msgValidate (t0 :: ts) s d sp L).2 d2 L2 = none)
    ∧ (∀ s : MsgState, (msgValidate (t0 :: ts) s d sp L).1 = VRes.OK →
        ∃ x, msgRead (t0 :: ts) (msgValidate (t0 :: ts) s d sp L).2 d2 L2 = some x) := by
  refine ⟨?_, ?_, ?_⟩
  · simp [msgRead, msgInit]
  · intro s hne
    rcases hv : seqValidateD (t0 :: ts) s.vals d sp ⟨sp, L⟩ with ⟨r, c1, vals1⟩
    simp only [msgValidate, hv] at hne ⊢
    simp only [msgRead]
    simp [hne]
  · intro s hok
    rcases hv : seqValidateD (t0 :: ts) s.vals d sp ⟨sp, L⟩ with ⟨r, c1, vals1⟩
    simp only [msgValidate, hv] at hok ⊢
    simp only [msgRead]
    simp [hok]

/-- Witness for C8: for a one-`Int8` message, the fresh instance refuses
`read`; a `NeedMoreData` validation on an empty buffer leaves `read`
refused; an `OK` validation on a one-byte buffer lets `read` proceed. -/
theorem read_requires_validate_ok_witness :
    (msgRead [FTy.int 1] (msgInit [FTy.int 1]) [5] 1 = none)
    ∧ (msgRead [FTy.int 1]
        (msgValidate [FTy.int 1] (msgInit [FTy.int 1]) [] 0 1).2 [5] 1 = none)
    ∧ (∃ x, msgRead [FTy.int 1]
        (msgValidate [FTy.int 1] (msgInit [FTy.int 1]) [5] 0 1).2 [5] 1 = some x) := by
  have h := read_requires_validate_ok (FTy.int 1) [] [] [5] 0 1 1
  have h2 := read_requires_validate_ok (FTy.int 1) [] [5] [5] 0 1 1
  exact ⟨h.1, h.2.1 (msgInit [FTy.int 1]) (by decide),
    h2.2.2 (msgInit [FTy.int 1]) (by decide)⟩

/-- Claim C9: messages without a wire identifier (`MessageImpl`,
including the zero-field variant) report `isWriteable() = false` and
their single-argument `write` is the fatal assertion (`none`); typed
messages report `isWriteable() = true` (and their `write` emits the
identified frame). -/
theorem writeable_contract (ts : List FTy) (id : Nat) (vals : List FVal) :
    isWriteable (MsgKind.plain ts) = false
    ∧ msgWriteOut (MsgKind.plain ts) vals = none
    ∧ isWriteable (MsgKind.typed id ts) = true
    ∧ msgWriteOut (MsgKind.typed id ts) vals = some (msgWriteId vals id) :=
  ⟨rfl, rfl, rfl, rfl⟩

/-!
## Claims C6 and C7: sizes, write lengths and the typed frame
-/

mutual

/-- For a size-safe field value, `getSize` computes the mathematical wire
size and `write` emits exactly that many bytes. -/
theorem sizeOk_val_size : ∀ v : FVal, sizeOkVal v = true →
    fgetSize v = trueSize v ∧ (fwrite v).length = trueSize v
  | .int w x, _ => by
    constructor
    · simp [fgetSize, trueSize]
    · simp [fwrite, trueSize, beBytes_length]
  | .array l, h => by
    have hb : trueSizeList l < 65536 ∧ sizeOkList l = true := by
      simpa [sizeOkVal] using h
    have hl := sizeOk_list_size l hb.2
    constructor
    · simp only [fgetSize, trueSize]
      rw [hl.1 0 (by omega) (by omega)]
      omega
    · simp only [fwrite, trueSize, List.length_append, beBytes_length, hl.2]

  | .repeated l, h => by
    have hb : trueSizeList l < 65536 ∧ sizeOkList l = true := by
      simpa [sizeOkVal] using h
    have hl := sizeOk_list_size l hb.2
    constructor
    · simp only [fgetSize, trueSize]
      rw [hl.1 0 (by omega) (by omega)]
      omega
    · simp only [fwrite, trueSize, hl.2]

/-- For a size-safe list of field values, the `uint16_t` accumulation
never wraps (so it computes the true sum over the accumulator) and the
serialized length is the true total size. -/
theorem sizeOk_list_size : ∀ l : List FVal, sizeOkList l = true →
    (∀ acc, acc < 65536 → acc + trueSizeList l < 65536 →
      sizeAccum l acc = acc + trueSizeList l)
    ∧ (fwriteList l).length = trueSizeList l
  | [], _ => by
    constructor
    · intro acc h1 h2
      simp [sizeAccum, trueSizeList]
    · simp [fwriteList, trueSizeList]
  | v :: vs, h => by
    have hi : sizeOkVal v = true ∧ sizeOkList vs = true := by
      simpa [sizeOkList] using h
    have hv := sizeOk_val_size v hi.1
    have hvs := sizeOk_list_size vs hi.2
    constructor
    · intro acc h1 h2
      simp only [sizeAccum, trueSizeList] at h2 ⊢
      rw [hv.1]
      have hm : (acc + trueSize v) % 65536 = acc + trueSize v :=
        Nat.mod_eq_of_lt (by omega)
      rw [hm, hvs.1 (acc + trueSize v) (by omega) (by omega)]
      omega
    · simp only [fwriteList, trueSizeList, List.length_append, hv.2, hvs.2]

end

/-- A sequence's `getSize` is the sum of its fields' `getSize`s. -/
theorem seqSizeD_eq_sum (vals : List FVal) :
    seqSizeD vals = (vals.map fgetSize).sum := by
  induction vals with
  | nil => simp [seqSizeD]
  | cons v vs ih => simp [seqSizeD, ih]

/-- For size-safe field values, `getSize` equals the number of bytes the
sequence write emits. -/
theorem sizeOk_write_len (vals : List FVal) (h : sizeOkList vals = true) :
    seqSizeD vals = (seqWriteD vals).length := by
  induction vals with
  | nil => simp [seqSizeD, seqWriteD, fwriteList]
  | cons v vs ih =>
    have hi : sizeOkVal v = true ∧ sizeOkList vs = true := by
      simpa [sizeOkList] using h
    have hv := sizeOk_val_size v hi.1
    have hvs := ih hi.2
    simp only [seqSizeD, seqWriteD, fwriteList, List.length_append, hv.1, hv.2]
    rw [hvs]
    rfl

/-- The `uint16_t` accumulation over `n` four-byte integer sizes. -/
theorem sizeAccum_replicate_int4 (n : Nat) :
    ∀ acc, acc < 65536 →
      sizeAccum (List.replicate n (FVal.int 4 0)) acc = (acc + 4 * n) % 65536 := by
  induction n with
  | zero =>
    intro acc h
    simp [sizeAccum, Nat.mod_eq_of_lt h]
  | succ k ih =>
    intro acc h
    rw [List.replicate_succ]
    simp only [sizeAccum]
    have hg : fgetSize (FVal.int 4 0) = 4 := by simp [fgetSize]
    rw [hg, ih ((acc + 4) % 65536) (Nat.mod_lt _ (by omega)), Nat.mod_add_mod]
    congr 1
    omega

/-- The serialized length of `n` copies of a field value. -/
theorem fwriteList_replicate (v : FVal) (n : Nat) :
    (fwriteList (List.replicate n v)).length = n * (fwrite v).length := by
  induction n with
  | zero => simp [fwriteList]
  | succ k ih =>
    rw [List.replicate_succ]
    simp only [fwriteList, List.length_append, ih]
    ring

/-- Unfolding lemma: the size of a one-field sequence. -/
theorem seqSizeD_single (v : FVal) : seqSizeD [v] = fgetSize v := by
  simp [seqSizeD]

/-- Unfolding lemma: the payload of a one-field sequence. -/
theorem seqWriteD_single (v : FVal) : seqWriteD [v] = fwrite v := by
  simp [seqWriteD, fwriteList]

/-- Unfolding lemma: `Array<T>::getSize`. -/
theorem fgetSize_array (l : List FVal) :
    fgetSize (FVal.array l) = 2 + sizeAccum l 0 := by
  simp [fgetSize]

/-- Unfolding lemma: `Array<T>::write`. -/
theorem fwrite_array (l : List FVal) :
    fwrite (FVal.array l) = beBytes 2 l.length ++ fwriteList l := by
  simp [fwrite]

/-- Unfolding lemma: `Int<T>::write`. -/
theorem fwrite_int (w v : Nat) : fwrite (FVal.int w v) = beBytes w v := by
  simp [fwrite]

/-- An `Array<Int32>` value holding 16384 elements: its total element
size is 65536, which wraps the source's `uint16_t` size accumulator to
zero. -/
def bigArr : FVal := FVal.array (List.replicate 16384 (FVal.int 4 0))

/-- `bigArr` unfolded. -/
theorem bigArr_eq : bigArr = FVal.array (List.replicate 16384 (FVal.int 4 0)) :=
  rfl

/-- The reported size of the wrapping array: 2 bytes. -/
theorem bigArr_getSize : seqSizeD [bigArr] = 2 := by
  rw [seqSizeD_single, bigArr_eq, fgetSize_array,
    sizeAccum_replicate_int4 16384 0 (by omega)]

/-- The emitted payload of the wrapping array: 65538 bytes. -/
theorem bigArr_write_len : (seqWriteD [bigArr]).length = 65538 := by
  rw [seqWriteD_single, bigArr_eq, fwrite_array, List.length_append,
    beBytes_length, fwriteList_replicate, fwrite_int, beBytes_length]

/-- Counterexample to C7 as stated: for a sequence holding an
`Array<Int32>` of 16384 elements, `getSize()` (2, after the `uint16_t`
accumulator wraps) differs from the 65538 bytes `write` emits. -/
theorem seq_getsize_write_cex :
    ¬ (seqSizeD [bigArr] = (seqWriteD [bigArr]).length) := by
  rw [bigArr_getSize, bigArr_write_len]
  omega

/-- Claim C7 (amended): for every sequence of field values in which every
container's total element size fits the source's 16-bit size
accumulator, `getSize()` equals the sum of the fields' sizes (0 for the
empty sequence) and equals the exact number of bytes `write` emits. -/
theorem seq_getsize_additive (vals : List FVal) (h : sizeOkList vals = true) :
    seqSizeD vals = (vals.map fgetSize).sum
    ∧ seqSizeD vals = (seqWriteD vals).length :=
  ⟨seqSizeD_eq_sum vals, sizeOk_write_len vals h⟩

/-- Witness for C7 on a two-field sequence (an `Array<Int32>` of one
element and an `Int16`). -/
theorem seq_getsize_additive_witness :
    seqSizeD [FVal.array [FVal.int 4 7], FVal.int 2 3]
      = (List.map fgetSize [FVal.array [FVal.int 4 7], FVal.int 2 3]).sum
    ∧ seqSizeD [FVal.array [FVal.int 4 7], FVal.int 2 3]
      = (seqWriteD [FVal.array [FVal.int 4 7], FVal.int 2 3]).length :=
  seq_getsize_additive [FVal.array [FVal.int 4 7], FVal.int 2 3] rfl

/-- Counterexample to C6 as stated: for a typed message carrying the
wrapping array, the emitted 4-byte length field (value 6) does not equal
the payload size plus 4 (65542). -/
theorem typed_write_length_field_cex :
    msgWriteId [bigArr] 88
      ≠ [88 % 256] ++ beBytes 4 ((seqWriteD [bigArr]).length + 4)
          ++ seqWriteD [bigArr] := by
  intro h
  rw [msgWriteId, bigArr_getSize, bigArr_write_len] at h
  rw [List.singleton_append, List.singleton_append] at h
  injection h with h1 h2
  have h3 := List.append_cancel_right h2
  exact absurd h3 (by decide)

/-- Claim C6 (amended): a typed message's `write` emits the identifier
byte, then the 4-byte big-endian length field `getSize() + 4`, then the
payload in declared field order; whenever every container's element size
total fits the 16-bit accumulator (and the frame fits the 32-bit length
field), the length-field value equals the payload size plus 4.  The
zero-field message emits only the identifier and the big-endian value 4. -/
theorem typed_write_frame (vals : List FVal) (id : Nat)
    (h : sizeOkList vals = true)
    (hfit : (seqWriteD vals).length + 4 < 4294967296) :
    msgWriteId vals id
      = [id % 256] ++ beBytes 4 ((seqWriteD vals).length + 4) ++ seqWriteD vals := by
  rw [msgWriteId, sizeOk_write_len vals h]

/-- Witness for C6: the zero-field typed message with identifier `'Q'`
(81) emits exactly the identifier byte and the big-endian value 4. -/
theorem typed_write_frame_witness :
    msgWriteId [] 81 = [81, 0, 0, 0, 4] := by
  have h := typed_write_frame [] 81 rfl (by decide)
  simpa using h

/-!
## Claim C2: validate-then-read round trip
-/

/-- `getD` at the junction of an append. -/
theorem getD_append_len {α : Type} (pre : List α) (x : α) (l : List α) (d0 : α) :
    (pre ++ x :: l).getD pre.length d0 = x := by
  induction pre with
  | nil => rfl
  | cons a as ih => simpa using ih

/-- `set` at the junction of an append. -/
theorem set_append_len {α : Type} (pre : List α) (x y : α) (l : List α) :
    (pre ++ x :: l).set pre.length y = pre ++ y :: l := by
  induction pre with
  | nil => rfl
  | cons a as ih =>
    show a :: (as ++ x :: l).set as.length y = a :: (as ++ y :: l)
    rw [ih]

/-- A chain of successful fresh element validations from cursor `c` to
cursor `c2`, producing the element states `l` in order. -/
inductive VChain {σ : Type} (ev : EV σ) (d : Data) (so : Nat) :
    Cursor → List σ → Cursor → Prop
  | nil (c : Cursor) : VChain ev d so c [] c
  | cons (c c1 c2 : Cursor) (s : σ) (l : List σ) :
      ev d so c = (VRes.OK, c1, s) → VChain ev d so c1 l c2 →
      VChain ev d so c (s :: l) c2

/-- A successful array element loop is a validation chain of the declared
length. -/
theorem vchain_of_arrAbsLoop {σ : Type} (ev : EV σ) (d : Data) (so : Nat) :
    ∀ n c c2 l, arrAbsLoop ev d so n c = (VRes.OK, c2, l) →
      VChain ev d so c l c2 ∧ l.length = n := by
  intro n
  induction n with
  | zero =>
    intro c c2 l h
    simp only [arrAbsLoop, Prod.mk.injEq] at h
    obtain ⟨-, h1, h2⟩ := h
    rw [← h1, ← h2]
    exact ⟨VChain.nil c, rfl⟩
  | succ n ih =>
    intro c c2 l h
    rcases hev0 : ev d so c with ⟨r0, c1, s1⟩
    simp only [arrAbsLoop, hev0] at h
    by_cases h0 : r0 = VRes.OK
    · subst h0
      rw [if_pos rfl] at h
      rcases hal : arrAbsLoop ev d so n c1 with ⟨r2, c2b, l2⟩
      rw [hal] at h
      simp only [Prod.mk.injEq] at h
      obtain ⟨h1, h2, h3⟩ := h
      obtain ⟨hch, hlen⟩ := ih c1 c2b l2 (by rw [hal, h1])
      rw [← h2, ← h3]
      exact ⟨VChain.cons c c1 c2b s1 l2 hev0 hch, by simp [hlen]⟩
    · rw [if_neg h0] at h
      simp only [Prod.mk.injEq] at h
      exact absurd h.1 h0

/-- When failing element validations leave the cursor untouched, any
repeated element loop run is a validation chain. -/
theorem vchain_of_repAbsLoop {σ : Type} (ev : EV σ) (d : Data) (so : Nat)
    (hstable : ∀ c r c1 s, ev d so c = (r, c1, s) → r ≠ VRes.OK → c1 = c) :
    ∀ fuel c c2 l, repAbsLoop ev d so fuel c = (c2, l) →
      VChain ev d so c l c2 := by
  intro fuel
  induction fuel with
  | zero =>
    intro c c2 l h
    simp only [repAbsLoop, Prod.mk.injEq] at h
    obtain ⟨h1, h2⟩ := h
    rw [← h1, ← h2]
    exact VChain.nil c
  | succ fuel ih =>
    intro c c2 l h
    by_cases hz : c.left = 0
    · simp only [repAbsLoop, hz, if_pos rfl] at h
      injection h with h1 h2
      rw [← h1, ← h2]
      exact VChain.nil c
    · rcases hev0 : ev d so c with ⟨r0, c1, s1⟩
      simp only [repAbsLoop, hz, if_false, hev0] at h
      by_cases h0 : r0 = VRes.OK
      · subst h0
        rw [if_pos rfl] at h
        rcases hrl : repAbsLoop ev d so fuel c1 with ⟨c2b, l2⟩
        rw [hrl] at h
        simp only [Prod.mk.injEq] at h
        obtain ⟨h1, h2⟩ := h
        rw [← h1, ← h2]
        exact VChain.cons c c1 c2b s1 l2 hev0 (ih c1 c2b l2 hrl)
      · rw [if_neg h0] at h
        simp only [Prod.mk.injEq] at h
        obtain ⟨h1, h2⟩ := h
        rw [← h1, ← h2, hstable c r0 c1 s1 hev0 h0]
        exact VChain.nil c

/-- The validator of a freshly default-constructed field of type `t`, as
used by the containers for their elements. -/
def evOf (t : FTy) : EV FVal := fun d1 so1 c1 => fvalidate t d1 so1 c1 (fdefault t)

/-- `evOf` unfolded. -/
theorem evOf_eq (t : FTy) (d : Data) (so : Nat) (c : Cursor) :
    evOf t d so c = fvalidate t d so c (fdefault t) := rfl

/-- `fvalidate` at an integer type, in projection form. -/
theorem fvalidate_int_eq (w : Nat) (d : Data) (so : Nat) (c : Cursor) (st : FVal) :
    fvalidate (.int w) d so c st
      = ((intValidate w d c).1, (intValidate w d c).2, st) := rfl

/-- `fvalidate` at an array type, in projection form. -/
theorem fvalidate_array_eq (t : FTy) (d : Data) (so : Nat) (c : Cursor) (st : FVal) :
    fvalidate (.array t) d so c st
      = ((arrayValidate (evOf t) d so c (vlist st)).1,
         (arrayValidate (evOf t) d so c (vlist st)).2.1,
         FVal.array (arrayValidate (evOf t) d so c (vlist st)).2.2) := rfl

/-- `fvalidate` at a repeated type, in projection form. -/
theorem fvalidate_rep_eq (t : FTy) (d : Data) (so : Nat) (c : Cursor) (st : FVal) :
    fvalidate (.repeated t) d so c st
      = ((repeatedValidate (evOf t) d so c (vlist st)).1,
         (repeatedValidate (evOf t) d so c (vlist st)).2.1,
         FVal.repeated (repeatedValidate (evOf t) d so c (vlist st)).2.2) := rfl

/-- `fread` at an array type, in projection form. -/
theorem fread_array_eq (t : FTy) (d : Data) (c : Cursor) (st : FVal) :
    fread (.array t) d c st
      = (true,
         (arrReadLoopA (fread t) d (fdefault t) (peekBE d c.pos 2) 0
            ⟨c.pos + 2, c.left - 2⟩ (vlist st)).1,
         FVal.array (arrReadLoopA (fread t) d (fdefault t) (peekBE d c.pos 2) 0
            ⟨c.pos + 2, c.left - 2⟩ (vlist st)).2) := rfl

/-- `fread` at a repeated type, in projection form. -/
theorem fread_rep_eq (t : FTy) (d : Data) (c : Cursor) (st : FVal) :
    fread (.repeated t) d c st
      = ((repReadLoopA (fread t) d (vlist st) c).1,
         (repReadLoopA (fread t) d (vlist st) c).2.1,
         FVal.repeated (repReadLoopA (fread t) d (vlist st) c).2.2) := rfl

/-- A failing integer validation leaves the cursor untouched. -/
theorem intValidate_fail_cursor (w : Nat) (d : Data) (c : Cursor) :
    ∀ r c1, intValidate w d c = (r, c1) → r ≠ VRes.OK → c1 = c := by
  intro r c1 h hr
  unfold intValidate at h
  by_cases h1 : c.left < w
  · rw [if_pos h1] at h
    injection h with ha hb
    exact hb.symm
  · rw [if_neg h1] at h
    by_cases h2 : d.length - c.pos < w
    · rw [if_pos h2] at h
      injection h with ha hb
      exact hb.symm
    · rw [if_neg h2] at h
      injection h with ha hb
      exact absurd ha.symm hr

/-- A failing array validation leaves the cursor untouched (restored). -/
theorem arrayValidate_fail_cursor {σ : Type} (ev : EV σ) (d : Data) (so : Nat)
    (c : Cursor) (st : List σ) :
    ∀ r c1 l, arrayValidate ev d so c st = (r, c1, l) → r ≠ VRes.OK → c1 = c := by
  intro r c1 l h hr
  unfold arrayValidate at h
  by_cases h1 : c.left < 2
  · rw [if_pos h1] at h
    injection h with ha hb
    injection hb with hb1 hb2
    exact hb1.symm
  · rw [if_neg h1] at h
    by_cases h2 : d.length - c.pos < 2
    · rw [if_pos h2] at h
      injection h with ha hb
      injection hb with hb1 hb2
      exact hb1.symm
    · rw [if_neg h2] at h
      simp only at h
      rcases hal : arrAbsLoop ev d so (peekBE d c.pos 2) ⟨c.pos + 2, c.left - 2⟩
        with ⟨ra, ca, la⟩
      rw [hal] at h
      by_cases h3 : ra = VRes.OK
      · rw [if_pos h3] at h
        injection h with ha hb
        exact absurd ha.symm hr
      · rw [if_neg h3] at h
        injection h with ha hb
        injection hb with hb1 hb2
        exact hb1.symm

/-- A failing repeated validation leaves the cursor untouched. -/
theorem repeatedValidate_fail_cursor {σ : Type} (ev : EV σ) (d : Data) (so : Nat)
    (c : Cursor) (st : List σ) :
    ∀ r c1 l, repeatedValidate ev d so c st = (r, c1, l) → r ≠ VRes.OK → c1 = c := by
  intro r c1 l h hr
  unfold repeatedValidate at h
  by_cases h1 : d.length - c.pos < c.left
  · rw [if_pos h1] at h
    injection h with ha hb
    injection hb with hb1 hb2
    exact hb1.symm
  · rw [if_neg h1] at h
    simp only at h
    rcases hrl : repAbsLoop ev d so c.left c with ⟨ca, la⟩
    rw [hrl] at h
    injection h with ha hb
    exact absurd ha.symm hr

/-- A failing field validation of any modelled type leaves the cursor
untouched. -/
theorem fvalidate_fail_cursor (t : FTy) (d : Data) (so : Nat) (c : Cursor)
    (st : FVal) :
    ∀ r c1 v, fvalidate t d so c st = (r, c1, v) → r ≠ VRes.OK → c1 = c := by
  intro r c1 v h hr
  cases t with
  | int w =>
    rw [fvalidate_int_eq] at h
    injection h with ha hb
    injection hb with hb1 hb2
    exact intValidate_fail_cursor w d c r c1 (by rw [← ha, ← hb1]) hr
  | array t =>
    rw [fvalidate_array_eq] at h
    injection h with ha hb
    injection hb with hb1 hb2
    rcases hav : arrayValidate (evOf t) d so c (vlist st) with ⟨ra, ca, la⟩
    rw [hav] at ha hb1
    simp only at ha hb1
    exact arrayValidate_fail_cursor (evOf t) d so c (vlist st) r c1 la
      (by rw [hav, ha, hb1]) hr
  | repeated t =>
    rw [fvalidate_rep_eq] at h
    injection h with ha hb
    injection hb with hb1 hb2
    rcases hav : repeatedValidate (evOf t) d so c (vlist st) with ⟨ra, ca, la⟩
    rw [hav] at ha hb1
    simp only at ha hb1
    exact repeatedValidate_fail_cursor (evOf t) d so c (vlist st) r c1 la
      (by rw [hav, ha, hb1]) hr

/-- The round-trip property of one field type: a successful fresh
validation moves the cursor forward in lockstep with the budget, a
subsequent `read` from the same cursor succeeds, ends at the same
cursor, and the resulting value serializes to exactly the bytes the
validation consumed. -/
def RT (t : FTy) : Prop :=
  ∀ d so c r c1 v, (∀ b ∈ d, b < 256) → c.pos ≤ d.length →
    evOf t d so c = (r, c1, v) → r = VRes.OK →
    (c.pos ≤ c1.pos ∧ c1.pos ≤ d.length ∧ c1.pos - c.pos ≤ c.left
      ∧ c1.left = c.left - (c1.pos - c.pos))
    ∧ ∃ v2, fread t d c v = (true, c1, v2)
        ∧ fwrite v2 = byteSlice d c.pos (c1.pos - c.pos)

/-- The round-trip property lifted along a validation chain: the element
read loops reproduce the chain's cursor trajectory and the collected
values serialize to the consumed byte range. -/
theorem chain_roundtrip (t : FTy) (hRT : RT t) (d : Data)
    (hd : ∀ b ∈ d, b < 256) (so : Nat) :
    ∀ c l c2, VChain (evOf t) d so c l c2 → c.pos ≤ d.length →
      (c.pos ≤ c2.pos ∧ c2.pos ≤ d.length ∧ c2.pos - c.pos ≤ c.left
        ∧ c2.left = c.left - (c2.pos - c.pos))
      ∧ ∃ l2 : List FVal, l2.length = l.length
        ∧ repReadLoopA (fread t) d l c = (true, c2, l2)
        ∧ (∀ pre : List FVal,
            arrReadLoopA (fread t) d (fdefault t) l.length pre.length c (pre ++ l)
              = (c2, pre ++ l2))
        ∧ fwriteList l2 = byteSlice d c.pos (c2.pos - c.pos) := by
  intro c l c2 hch
  induction hch with
  | nil c0 =>
    intro hpos
    refine ⟨⟨le_refl _, hpos, by omega, by omega⟩, [], rfl, rfl, ?_, ?_⟩
    · intro pre
      rfl
    · simp [fwriteList, byteSlice]
  | cons c0 cm c2' s l0 hev hch0 ih =>
    intro hpos
    obtain ⟨⟨i1, i2, i3, i4⟩, v2, hread, hwv⟩ :=
      hRT d so c0 VRes.OK cm s hd hpos hev rfl
    obtain ⟨⟨j1, j2, j3, j4⟩, l2, hlen, hrep, harr, hwl⟩ := ih i2
    refine ⟨⟨by omega, j2, by omega, by omega⟩, v2 :: l2, by simp [hlen], ?_, ?_, ?_⟩
    · simp only [repReadLoopA, hread]
      simp [hrep]
    · intro pre
      simp only [List.length_cons, arrReadLoopA, getD_append_len, hread]
      rw [set_append_len]
      have hsw : pre ++ v2 :: l0 = (pre ++ [v2]) ++ l0 := by
        simp
      have hlsw : pre.length + 1 = (pre ++ [v2]).length := by
        simp
      rw [hsw, hlsw, harr (pre ++ [v2])]
      simp
    · show fwrite v2 ++ fwriteList l2 = _
      rw [hwv, hwl, byteSlice_append d i1 j1]

/-- `Repeated<T>::write` in the deep embedding. -/
theorem fwrite_rep (l : List FVal) : fwrite (FVal.repeated l) = fwriteList l := by
  simp [fwrite]

/-- Every modelled field type satisfies the round-trip property: a fresh
validation returning `OK` consumes a byte range that a subsequent `read`
decodes (ending at the same cursor) into values whose serialization is
exactly that byte range. -/
theorem fvalidate_roundtrip : ∀ t : FTy, RT t := by
  intro t
  induction t with
  | int w =>
    intro d so c r c1 v hd hpos hv hok
    subst hok
    rw [evOf_eq, fvalidate_int_eq] at hv
    injection hv with ha hb
    injection hb with hb1 hb2
    by_cases h1 : c.left < w
    · simp [intValidate, h1] at ha
    · by_cases h2 : d.length - c.pos < w
      · simp [intValidate, h1, h2] at ha
      · have hc1 : c1 = ⟨c.pos + w, c.left - w⟩ := by
          rw [← hb1]
          simp [intValidate, h1, h2]
        subst hc1
        constructor
        · have hfacts : c.pos ≤ c.pos + w ∧ c.pos + w ≤ d.length
              ∧ c.pos + w - c.pos ≤ c.left
              ∧ c.left - w = c.left - (c.pos + w - c.pos) := by omega
          exact ⟨hfacts.1, hfacts.2.1, hfacts.2.2.1, hfacts.2.2.2⟩
        · refine ⟨FVal.int w (peekBE d c.pos w), rfl, ?_⟩
          rw [fwrite_int]
          have hx : Cursor.pos ⟨c.pos + w, c.left - w⟩ - c.pos = w := by
            simp
          rw [hx]
          exact beBytes_peekBE hd c.pos w (by omega)
  | array t iht =>
    intro d so c r c1 v hd hpos hv hok
    subst hok
    rw [evOf_eq, fvalidate_array_eq] at hv
    injection hv with ha hb
    injection hb with hb1 hb2
    have hvl : vlist (fdefault (FTy.array t)) = [] := rfl
    rw [hvl] at ha hb1 hb2
    rcases hav : arrayValidate (evOf t) d so c [] with ⟨ra, ca, la⟩
    rw [hav] at ha hb1 hb2
    simp only at ha hb1 hb2
    subst ha
    subst hb1
    subst hb2
    unfold arrayValidate at hav
    by_cases h1 : c.left < 2
    · rw [if_pos h1] at hav
      injection hav with x1 x2
      exact absurd x1 (by decide)
    · rw [if_neg h1] at hav
      by_cases h2 : d.length - c.pos < 2
      · rw [if_pos h2] at hav
        injection hav with x1 x2
        exact absurd x1 (by decide)
      · rw [if_neg h2] at hav
        simp only at hav
        rcases hal : arrAbsLoop (evOf t) d so (peekBE d c.pos 2)
            ⟨c.pos + 2, c.left - 2⟩ with ⟨rb, cb, lb⟩
        rw [hal] at hav
        by_cases h3 : rb = VRes.OK
        · rw [if_pos h3] at hav
          injection hav with x1 x2
          injection x2 with x2a x2b
          simp only at x2a
          simp only [List.nil_append] at x2b
          subst x2a
          subst x2b
          obtain ⟨hch, hn⟩ := vchain_of_arrAbsLoop (evOf t) d so
            (peekBE d c.pos 2) ⟨c.pos + 2, c.left - 2⟩ cb lb (by rw [hal, h3])
          have hpos2 : Cursor.pos ⟨c.pos + 2, c.left - 2⟩ ≤ d.length := by
            simp
            omega
          obtain ⟨⟨j1, j2, j3, j4⟩, l2, hlen, hrep, harr, hwl⟩ :=
            chain_roundtrip t iht d hd so ⟨c.pos + 2, c.left - 2⟩ lb cb hch hpos2
          have j1n : c.pos + 2 ≤ cb.pos := j1
          have j3n : cb.pos - (c.pos + 2) ≤ c.left - 2 := j3
          have j4n : cb.left = (c.left - 2) - (cb.pos - (c.pos + 2)) := j4
          constructor
          · refine ⟨by omega, j2, by omega, by omega⟩
          · refine ⟨FVal.array l2, ?_, ?_⟩
            · rw [fread_array_eq]
              have hv2 : vlist (FVal.array lb) = lb := rfl
              rw [hv2]
              have harr0 := harr []
              simp only [List.nil_append, List.length_nil] at harr0
              rw [← hn, harr0]
            · rw [fwrite_array]
              have hll : l2.length = peekBE d c.pos 2 := by rw [hlen, hn]
              rw [hll]
              have hwl2 : fwriteList l2
                  = byteSlice d (c.pos + 2) (cb.pos - (c.pos + 2)) := hwl
              rw [hwl2, beBytes_peekBE hd c.pos 2 (by omega)]
              have hx : (2 : Nat) = (c.pos + 2) - c.pos := by omega
              calc byteSlice d c.pos 2 ++ byteSlice d (c.pos + 2) (cb.pos - (c.pos + 2))
                  = byteSlice d c.pos ((c.pos + 2) - c.pos)
                      ++ byteSlice d (c.pos + 2) (cb.pos - (c.pos + 2)) := by rw [← hx]
                _ = byteSlice d c.pos (cb.pos - c.pos) :=
                    byteSlice_append d (by omega) (by omega)
        · rw [if_neg h3] at hav
          injection hav with x1 x2
          exact absurd x1 h3
  | repeated t iht =>
    intro d so c r c1 v hd hpos hv hok
    subst hok
    rw [evOf_eq, fvalidate_rep_eq] at hv
    injection hv with ha hb
    injection hb with hb1 hb2
    have hvl : vlist (fdefault (FTy.repeated t)) = [] := rfl
    rw [hvl] at ha hb1 hb2
    rcases hav : repeatedValidate (evOf t) d so c [] with ⟨ra, ca, la⟩
    rw [hav] at ha hb1 hb2
    simp only at ha hb1 hb2
    subst ha
    subst hb1
    subst hb2
    unfold repeatedValidate at hav
    by_cases h1 : d.length - c.pos < c.left
    · rw [if_pos h1] at hav
      injection hav with x1 x2
      exact absurd x1 (by decide)
    · rw [if_neg h1] at hav
      simp only at hav
      rcases hrl : repAbsLoop (evOf t) d so c.left c with ⟨cb, lb⟩
      rw [hrl] at hav
      injection hav with x1 x2
      injection x2 with x2a x2b
      simp only at x2a
      simp only [List.nil_append] at x2b
      subst x2a
      subst x2b
      have hstable : ∀ c3 r3 c4 s3, evOf t d so c3 = (r3, c4, s3) →
          r3 ≠ VRes.OK → c4 = c3 := by
        intro c3 r3 c4 s3 h3 hr3
        exact fvalidate_fail_cursor t d so c3 (fdefault t) r3 c4 s3 h3 hr3
      have hch := vchain_of_repAbsLoop (evOf t) d so hstable c.left c cb lb hrl
      obtain ⟨⟨j1, j2, j3, j4⟩, l2, hlen, hrep, harr, hwl⟩ :=
        chain_roundtrip t iht d hd so c lb cb hch hpos
      constructor
      · exact ⟨j1, j2, j3, j4⟩
      · refine ⟨FVal.repeated l2, ?_, ?_⟩
        · rw [fread_rep_eq]
          have hv2 : vlist (FVal.repeated lb) = lb := rfl
          rw [hv2, hrep]
        · rw [fwrite_rep, hwl]

/-- The sequence-level round trip from any starting cursor: a freshly
constructed field chain whose validation returns `OK` is read back to the
same cursor and its values serialize to the consumed byte range. -/
theorem seq_roundtrip_aux :
    ∀ (ts : List FTy) (d : Data) (so : Nat) (c : Cursor),
      (∀ b ∈ d, b < 256) → c.pos ≤ d.length →
      ∀ r c1 vals1, seqValidateD ts (ts.map fdefault) d so c = (r, c1, vals1) →
        r = VRes.OK →
        (c.pos ≤ c1.pos ∧ c1.pos ≤ d.length)
        ∧ ∃ vals2, seqReadD ts vals1 d c = (true, c1, vals2)
            ∧ fwriteList vals2 = byteSlice d c.pos (c1.pos - c.pos) := by
  intro ts
  induction ts with
  | nil =>
    intro d so c hd hpos r c1 vals1 hv hok
    simp only [seqValidateD] at hv
    injection hv with y1 y2
    injection y2 with y2a y2b
    rw [← y2a, ← y2b]
    refine ⟨⟨le_refl _, hpos⟩, [], rfl, ?_⟩
    simp [fwriteList, byteSlice]
  | cons t ts ih =>
    intro d so c hd hpos r c1 vals1 hv hok
    subst hok
    simp only [List.map_cons, seqValidateD, List.headD_cons, List.tail_cons] at hv
    rcases hfv : fvalidate t d so c (fdefault t) with ⟨r0, cm, v1⟩
    rw [hfv] at hv
    by_cases h0 : r0 = VRes.OK
    · subst h0
      rw [if_pos rfl] at hv
      rcases hsv : seqValidateD ts (ts.map fdefault) d so cm with ⟨r2, c2, vs1⟩
      rw [hsv] at hv
      by_cases h2 : r2 = VRes.OK
      · subst h2
        rw [if_pos rfl] at hv
        injection hv with y1 y2
        injection y2 with y2a y2b
        simp only at y2a y2b
        obtain ⟨⟨i1, i2, i3, i4⟩, v2, hread, hwv⟩ :=
          fvalidate_roundtrip t d so c VRes.OK cm v1 hd hpos hfv rfl
        obtain ⟨⟨k1, k2⟩, vs2, hreads, hws⟩ :=
          ih d so cm hd i2 VRes.OK c2 vs1 hsv rfl
        rw [← y2a, ← y2b]
        refine ⟨⟨by omega, k2⟩, v2 :: vs2, ?_, ?_⟩
        · simp only [seqReadD, List.headD_cons, List.tail_cons, hread]
          simp [hreads]
        · show fwrite v2 ++ fwriteList vs2 = _
          rw [hwv, hws]
          exact byteSlice_append d i1 k1
      · rw [if_neg h2] at hv
        injection hv with y1 y2
        exact absurd y1 h2
    · rw [if_neg h0] at hv
      injection hv with y1 y2
      exact absurd y1 h0

/-- Claim C2 (amended): for a freshly constructed message over the
modelled field types (fixed-width integers, counted arrays, unbounded
repetitions, no direct `Repeated` nesting) whose first `validate` over a
well-formed buffer at start offset 0 returns `OK`, a subsequent `read`
with the same buffer and length succeeds, ends at the validation cursor,
and serializing the resulting field values with `write` reproduces
exactly the payload bytes the validation consumed. -/
theorem validate_read_roundtrip_fresh (ts : List FTy)
    (hwf : ∀ t ∈ ts, wfTy t = true) (d : Data) (hd : ∀ b ∈ d, b < 256)
    (L : Nat) (r : VRes) (c1 : Cursor) (vals1 : List FVal)
    (hv : seqValidateD ts (ts.map fdefault) d 0 ⟨0, L⟩ = (r, c1, vals1))
    (hok : r = VRes.OK) :
    ∃ vals2, seqReadD ts vals1 d ⟨0, L⟩ = (true, c1, vals2)
      ∧ seqWriteD vals2 = d.take c1.pos := by
  obtain ⟨-, vals2, hread, hw⟩ :=
    seq_roundtrip_aux ts d 0 ⟨0, L⟩ hd (by simp) r c1 vals1 hv hok
  refine ⟨vals2, hread, ?_⟩
  show fwriteList vals2 = _
  rw [hw]
  simp [byteSlice]

/-- The field types of the counterexample message:
`MessageImpl<Array<Int8>, Int32>`. -/
def cexTs : List FTy := [FTy.array (FTy.int 1), FTy.int 4]

/-- First arrival: the array (count 1, one element) only. -/
def cexD1 : Data := [0, 1, 85]

/-- Second arrival: the full 7-byte payload. -/
def cexD2 : Data := [0, 1, 85, 0, 0, 0, 7]

/-- Counterexample to C2 as stated: a message whose first `validate`
(over a partial buffer) returned `NeedMoreData` retains the array
element it validated; the second `validate` over the full buffer returns
`OK` after appending a duplicate element, `read` succeeds, but `write`
of the resulting values emits a count of 2 and 8 bytes — not the 7
validated payload bytes. -/
theorem validate_read_roundtrip_cex :
    (msgValidate cexTs (msgValidate cexTs (msgInit cexTs) cexD1 0 7).2 cexD2 0 7).1
      = VRes.OK
    ∧ msgRead cexTs
        (msgValidate cexTs (msgValidate cexTs (msgInit cexTs) cexD1 0 7).2 cexD2 0 7).2
        cexD2 7
      = some (true, ⟨7, 0⟩,
          [FVal.array [FVal.int 1 85, FVal.int 1 0], FVal.int 4 7])
    ∧ seqWriteD [FVal.array [FVal.int 1 85, FVal.int 1 0], FVal.int 4 7]
        ≠ cexD2.take 7 :=
  ⟨rfl, rfl, by decide⟩

/-- Witness for the amended C2 on a fresh one-`Int8` message over a
one-byte buffer. -/
theorem validate_read_roundtrip_fresh_witness :
    ∃ vals2, seqReadD [FTy.int 1] [FVal.int 1 0] [9] ⟨0, 1⟩ = (true, ⟨1, 0⟩, vals2)
      ∧ seqWriteD vals2 = List.take (Cursor.pos ⟨1, 0⟩) [9] :=
  validate_read_roundtrip_fresh [FTy.int 1] (by decide) [9] (by decide) 1
    VRes.OK ⟨1, 0⟩ [FVal.int 1 0] rfl rfl
